import Mathlib

/-!
Verification of the deferred-callback scheduler in src/src/callback_registry.cpp.

Timestamps are modelled as integers (whole numbers of time units); the
C++ Timestamp class (declared in a header outside src/) supports
construction from a delay (now + secs), comparison, and diff_secs
(subtraction), which exact integer arithmetic captures, keeping every
definition computable down to the kernel.

The std::priority_queue of Callback_sp with the pointer_greater_than
comparator is a min-heap keyed by Callback ordering; it is modelled as a
list kept sorted ascending, whose head is the heap minimum (queue.top),
whose tail is the state after queue.pop, and whose push is ordered insert.
-/

namespace LaterReg

/-- Modelled from the spec (Callback class, declared in callback_registry.h
which is not under src/): a scheduled item pairs an absolute due timestamp
with a sequence number taken from nextCallbackNum, the process-wide
monotonically increasing counter. -/
structure Callback where
  when : ℤ
  callbackNum : Nat
deriving DecidableEq, Repr

/-- Modelled from the spec (Callback comparison operators, declared in
callback_registry.h which is not under src/): a strict total order over
(dueTime, sequence) ascending — earlier due time first, and among equal
due times, lower sequence number (earlier-constructed) first. -/
def cbLt (a b : Callback) : Bool :=
  decide (a.when < b.when) ||
    (decide (a.when = b.when) && decide (a.callbackNum < b.callbackNum))

/-- Propositional form of the Callback strict order. -/
def cbLtP (a b : Callback) : Prop :=
  a.when < b.when ∨ (a.when = b.when ∧ a.callbackNum < b.callbackNum)

instance (a b : Callback) : Decidable (cbLtP a b) := by
  unfold cbLtP
  infer_instance

theorem cbLt_iff (a b : Callback) : cbLt a b = true ↔ cbLtP a b := by
  simp [cbLt, cbLtP]

theorem cbLtP_irrefl (a : Callback) : ¬ cbLtP a a := by
  rintro (h | ⟨_, h⟩) <;> exact absurd h (lt_irrefl _)

theorem cbLtP_asymm {a b : Callback} (h : cbLtP a b) : ¬ cbLtP b a := by
  rintro (h2 | ⟨he2, hn2⟩) <;> rcases h with h1 | ⟨he1, hn1⟩
  · exact absurd (h1.trans h2) (lt_irrefl _)
  · exact absurd h2 (by rw [he1]; exact lt_irrefl _)
  · exact absurd h1 (by rw [he2]; exact lt_irrefl _)
  · exact absurd (hn1.trans hn2) (lt_irrefl _)

theorem cbLtP_trans {a b c : Callback} (h1 : cbLtP a b) (h2 : cbLtP b c) :
    cbLtP a c := by
  rcases h1 with h1 | ⟨he1, hn1⟩ <;> rcases h2 with h2 | ⟨he2, hn2⟩
  · exact Or.inl (h1.trans h2)
  · exact Or.inl (he2 ▸ h1)
  · exact Or.inl (he1 ▸ h2)
  · exact Or.inr ⟨he1.trans he2, hn1.trans hn2⟩

theorem cbLtP_total {a b : Callback} (hne : a.callbackNum ≠ b.callbackNum) :
    cbLtP a b ∨ cbLtP b a := by
  rcases lt_trichotomy a.when b.when with hw | hw | hw
  · exact Or.inl (Or.inl hw)
  · rcases Nat.lt_or_ge a.callbackNum b.callbackNum with hn | hn
    · exact Or.inl (Or.inr ⟨hw, hn⟩)
    · exact Or.inr (Or.inr ⟨hw.symm, lt_of_le_of_ne hn hne.symm⟩)
  · exact Or.inr (Or.inl hw)

theorem cbLtP_when_le {a b : Callback} (h : cbLtP a b) : a.when ≤ b.when := by
  rcases h with h | ⟨he, _⟩
  · exact le_of_lt h
  · exact le_of_eq he

/-- A queue (list) sorted strictly ascending by the Callback order: the
min-heap invariant of the modelled priority queue. -/
def SortedQueue (q : List Callback) : Prop :=
  q.Pairwise cbLtP

/-- Push onto the min-heap, modelled as ordered insertion into the sorted
list (std::priority_queue::push keyed by the Callback order). -/
def heapPush (cb : Callback) : List Callback → List Callback
  | [] => [cb]
  | x :: xs => if cbLt cb x then cb :: x :: xs else x :: heapPush cb xs

theorem heapPush_cons_pos {cb x : Callback} {xs : List Callback}
    (h : cbLt cb x = true) : heapPush cb (x :: xs) = cb :: x :: xs := by
  simp [heapPush, h]

theorem heapPush_cons_neg {cb x : Callback} {xs : List Callback}
    (h : ¬ cbLt cb x = true) : heapPush cb (x :: xs) = x :: heapPush cb xs := by
  simp [heapPush, h]

theorem mem_heapPush {y cb : Callback} {q : List Callback} :
    y ∈ heapPush cb q ↔ y = cb ∨ y ∈ q := by
  induction q with
  | nil => simp [heapPush]
  | cons x xs ih =>
    by_cases h : cbLt cb x = true
    · rw [heapPush_cons_pos h]
      simp only [List.mem_cons]
    · rw [heapPush_cons_neg h]
      simp only [List.mem_cons, ih]
      tauto

theorem heapPush_sorted {cb : Callback} {q : List Callback}
    (hq : SortedQueue q) (hfresh : ∀ x ∈ q, x.callbackNum ≠ cb.callbackNum) :
    SortedQueue (heapPush cb q) := by
  induction q with
  | nil => simp [heapPush, SortedQueue]
  | cons x xs ih =>
    rcases List.pairwise_cons.mp hq with ⟨hx, hxs⟩
    unfold SortedQueue
    by_cases h : cbLt cb x = true
    · rw [heapPush_cons_pos h]
      refine List.pairwise_cons.mpr ⟨?_, hq⟩
      intro y hy
      rcases List.mem_cons.mp hy with hy | hy
      · subst hy
        exact (cbLt_iff cb y).mp h
      · exact cbLtP_trans ((cbLt_iff cb x).mp h) (hx y hy)
    · rw [heapPush_cons_neg h]
      refine List.pairwise_cons.mpr ⟨?_, ?_⟩
      · intro y hy
        rcases mem_heapPush.mp hy with hy | hy
        · subst hy
          have hne : x.callbackNum ≠ y.callbackNum :=
            hfresh x (List.mem_cons_self x xs)
          rcases cbLtP_total hne with hc | hc
          · exact hc
          · exact absurd ((cbLt_iff y x).mpr hc) (by simpa using h)
        · exact hx y hy
      · exact ih hxs (fun z hz => hfresh z (List.mem_cons_of_mem x hz))

/-- CallbackRegistry state: the heap plus the value of the
nextCallbackNum counter (a process-wide atomic in the source, modelled as
registry state since a single registry is in play). -/
structure Registry where
  queue : List Callback
  nextNum : Nat
deriving DecidableEq, Repr

/-- A freshly constructed registry with the counter at 0. -/
def Registry.init : Registry :=
  { queue := [], nextNum := 0 }

/-- CallbackRegistry::add — computes when = now + secs, allocates a
Callback carrying the next sequence number, and pushes it onto the heap. -/
def Registry.add (r : Registry) (now secs : ℤ) : Registry :=
  { queue := heapPush { when := now + secs, callbackNum := r.nextNum } r.queue,
    nextNum := r.nextNum + 1 }

/-- A sequence of add calls, each given its own clock reading. -/
def addMany (r : Registry) : List (ℤ × ℤ) → Registry
  | [] => r
  | e :: rest => addMany (r.add e.1 e.2) rest

/-- All sequence numbers present in the queue are below n. -/
def NumsBelow (q : List Callback) (n : Nat) : Prop :=
  ∀ cb ∈ q, cb.callbackNum < n

/-- Registry invariant: the heap is sorted and every stored sequence
number is below the counter. -/
def Registry.Inv (r : Registry) : Prop :=
  SortedQueue r.queue ∧ NumsBelow r.queue r.nextNum

theorem Registry.add_inv {r : Registry} (h : r.Inv) (now secs : ℤ) :
    (r.add now secs).Inv := by
  rcases h with ⟨hs, hn⟩
  constructor
  · exact heapPush_sorted hs (fun x hx => Nat.ne_of_lt (hn x hx))
  · intro cb hcb
    rcases mem_heapPush.mp hcb with hcb | hcb
    · subst hcb
      exact Nat.lt_succ_self _
    · exact Nat.lt_succ_of_lt (hn cb hcb)

theorem addMany_inv {r : Registry} (h : r.Inv) (es : List (ℤ × ℤ)) :
    (addMany r es).Inv := by
  induction es generalizing r with
  | nil => exact h
  | cons e rest ih => exact ih (r.add_inv h e.1 e.2)

theorem Registry.init_inv : Registry.init.Inv := by
  constructor
  · exact List.Pairwise.nil
  · intro cb hcb
    simp [Registry.init] at hcb

/-- CallbackRegistry::nextTimestamp — the smallest timestamp present in
the registry, if any. -/
def nextTimestamp : List Callback → Option ℤ
  | [] => none
  | cb :: _ => some cb.when

/-- CallbackRegistry::empty — true iff the heap has no items. -/
def emptyQ (q : List Callback) : Bool :=
  q.isEmpty

/-- CallbackRegistry::due — true iff the queue is non-empty and the
smallest timestamp is not greater than the given time. -/
def due (q : List Callback) (time : ℤ) : Bool :=
  !q.isEmpty && !(decide ((nextTimestamp q).getD 0 > time))

theorem due_nil (time : ℤ) : due [] time = false := by
  simp [due]

theorem due_cons (cb : Callback) (rest : List Callback) (time : ℤ) :
    due (cb :: rest) time = decide (cb.when ≤ time) := by
  simp only [due, nextTimestamp, List.isEmpty_cons, Bool.not_false,
    Bool.true_and, Option.getD_some, gt_iff_lt]
  rw [← decide_not, decide_eq_decide]
  exact not_lt

/-- Loop of CallbackRegistry::take — while this->due(time) and
(max <= 0, i.e. max == 0 for the unsigned max, or results.size() < max),
push queue.top() onto results and queue.pop(). -/
def takeAux (maxC : Nat) (time : ℤ) :
    List Callback → List Callback → List Callback × List Callback
  | results, [] => (results, [])
  | results, cb :: rest =>
    if due (cb :: rest) time && (maxC == 0 || decide (results.length < maxC)) then
      takeAux maxC time (results ++ [cb]) rest
    else
      (results, cb :: rest)

/-- CallbackRegistry::take — returns the extracted items in extraction
order together with the remaining heap. -/
def take (maxC : Nat) (time : ℤ) (q : List Callback) :
    List Callback × List Callback :=
  takeAux maxC time [] q

/-- Variant of the take loop that makes the precondition of queue.top()
and queue.pop() explicit: attempting to read the top of an empty heap
returns none (the error branch). -/
def takeAuxChecked (maxC : Nat) (time : ℤ) :
    List Callback → List Callback → Option (List Callback × List Callback)
  | results, [] =>
    if due [] time && (maxC == 0 || decide (results.length < maxC)) then
      none
    else
      some (results, [])
  | results, cb :: rest =>
    if due (cb :: rest) time && (maxC == 0 || decide (results.length < maxC)) then
      takeAuxChecked maxC time (results ++ [cb]) rest
    else
      some (results, cb :: rest)

/-- Body of the wake-point computation in CallbackRegistry::wait — end
starts as expireTime and becomes *next when nextTimestamp() has a value
below expireTime. -/
def endTime (q : List Callback) (expire : ℤ) : ℤ :=
  match nextTimestamp q with
  | some next => if next < expire then next else expire
  | none => expire

/-- Clamp of the sleep duration in CallbackRegistry::wait — a waitFor
above 2 seconds is replaced by 2, to stay responsive to interrupts. -/
def clampSleep (w : ℤ) : ℤ :=
  if w > 2 then 2 else w

/-- Substitution at the top of CallbackRegistry::wait — a negative
timeoutSecs is replaced by 3e10 seconds (about 1000 years). -/
def effectiveTimeout (t : ℤ) : ℤ :=
  if t < 0 then 30000000000 else t

/-- Loop of CallbackRegistry::wait. The clock stream gives the successive
readings of Timestamp() (one per iteration for diff_secs, plus a final one
for the due() in the return statement); the intr stream gives the
successive verdicts of Rcpp::checkUserInterrupt (true = interrupt raised,
modelled as Except.error). The queue never changes during the wait (the
method is const and single-consumer); it is threaded into the output so
that frame preservation is a stated fact rather than a typing accident.
The result records the durations handed to condvar.timedwait; fuel bounds
the number of iterations, with none when it runs out. -/
def waitLoop (q : List Callback) (expire : ℤ) (clock : Nat → ℤ)
    (intr : Nat → Bool) :
    Nat → Nat → Nat → List ℤ → Option (Except Unit Bool × List ℤ × List Callback)
  | 0, _, _, _ => none
  | fuel + 1, tIdx, iIdx, sleeps =>
    let waitFor := endTime q expire - clock tIdx
    if waitFor ≤ 0 then
      some (Except.ok (due q (clock (tIdx + 1))), sleeps, q)
    else
      let d := clampSleep waitFor
      if intr iIdx then
        some (Except.error (), sleeps ++ [d], q)
      else
        waitLoop q expire clock intr fuel (tIdx + 1) (iIdx + 1) (sleeps ++ [d])

/-- CallbackRegistry::wait — expireTime is Timestamp(timeoutSecs), i.e.
the entry clock reading (index 0) plus the effective timeout. -/
def wait (q : List Callback) (timeoutSecs : ℤ) (clock : Nat → ℤ)
    (intr : Nat → Bool) (fuel : Nat) :
    Option (Except Unit Bool × List ℤ × List Callback) :=
  waitLoop q (clock 0 + effectiveTimeout timeoutSecs) clock intr fuel 1 0 []

/-- Representation of a queued callback as produced by rRepresentation:
the callback number and the due offset relative to now
(when.diff_secs(Timestamp())). The textual description of the work is
omitted as opaque. -/
structure Representation where
  id : Nat
  whenOffset : ℤ
deriving DecidableEq, Repr

/-- Callback::rRepresentation — id is the callback number, when is the
due time minus the current time. -/
def rRepresentation (cb : Callback) (now : ℤ) : Representation :=
  { id := cb.callbackNum, whenOffset := cb.when - now }

/-- Ascending order on representations induced by (dueTime, sequence). -/
def reprLtP (a b : Representation) : Prop :=
  a.whenOffset < b.whenOffset ∨ (a.whenOffset = b.whenOffset ∧ a.id < b.id)

/-- Drain loop of CallbackRegistry::list — pops the copied heap until
empty, collecting rRepresentation of each top in pop order. -/
def listDrain (now : ℤ) : List Callback → List Representation
  | [] => []
  | cb :: rest => rRepresentation cb now :: listDrain now rest

/-- CallbackRegistry::list — drains a copy of the heap (temp_queue) and
returns the collected representations; the live registry is returned
unchanged alongside. -/
def listOp (r : Registry) (now : ℤ) : List Representation × Registry :=
  (listDrain now r.queue, r)

instance (q : List Callback) : Decidable (SortedQueue q) := by
  unfold SortedQueue
  infer_instance

theorem takeAux_cons_pos {maxC : Nat} {time : ℤ} {results : List Callback}
    {cb : Callback} {rest : List Callback}
    (h : (due (cb :: rest) time && (maxC == 0 || decide (results.length < maxC))) = true) :
    takeAux maxC time results (cb :: rest) = takeAux maxC time (results ++ [cb]) rest := by
  simp only [takeAux, h, if_true]

theorem takeAux_cons_neg {maxC : Nat} {time : ℤ} {results : List Callback}
    {cb : Callback} {rest : List Callback}
    (h : (due (cb :: rest) time && (maxC == 0 || decide (results.length < maxC))) = false) :
    takeAux maxC time results (cb :: rest) = (results, cb :: rest) := by
  simp only [takeAux, h, Bool.false_eq_true, if_false]

theorem takeAux_pairwise (maxC : Nat) (time : ℤ) :
    ∀ (q results : List Callback), (results ++ q).Pairwise cbLtP →
      ((takeAux maxC time results q).1).Pairwise cbLtP := by
  intro q
  induction q with
  | nil =>
    intro results h
    simpa [takeAux] using h
  | cons cb rest ih =>
    intro results h
    by_cases hc : (due (cb :: rest) time && (maxC == 0 || decide (results.length < maxC))) = true
    · rw [takeAux_cons_pos hc]
      apply ih
      rw [List.append_cons] at h
      exact h
    · rw [takeAux_cons_neg (Bool.eq_false_iff.mpr hc)]
      exact (List.pairwise_append.mp h).1

theorem take_pairwise {q : List Callback} (hq : SortedQueue q) (maxC : Nat) (time : ℤ) :
    ((take maxC time q).1).Pairwise cbLtP := by
  apply takeAux_pairwise
  simpa using hq

/-- C1: over a registry built by any sequence of insertions, extraction
respects the strict total order over (dueTime, sequence): if item a at
position i of the sequence returned by take has an earlier due time than
item b at position j, or an equal due time and a lower sequence number
(meaning a was constructed first, since the counter increases with each
insertion), then i < j — so extraction order equals insertion order for
items sharing a timestamp. -/
theorem take_extraction_order (entries : List (ℤ × ℤ)) (maxC : Nat) (time : ℤ)
    (i j : Nat)
    (hi : i < ((take maxC time (addMany Registry.init entries).queue).1).length)
    (hj : j < ((take maxC time (addMany Registry.init entries).queue).1).length)
    (hord :
      (((take maxC time (addMany Registry.init entries).queue).1).get ⟨i, hi⟩).when <
          (((take maxC time (addMany Registry.init entries).queue).1).get ⟨j, hj⟩).when ∨
        ((((take maxC time (addMany Registry.init entries).queue).1).get ⟨i, hi⟩).when =
            (((take maxC time (addMany Registry.init entries).queue).1).get ⟨j, hj⟩).when ∧
          (((take maxC time (addMany Registry.init entries).queue).1).get ⟨i, hi⟩).callbackNum <
            (((take maxC time (addMany Registry.init entries).queue).1).get ⟨j, hj⟩).callbackNum)) :
    i < j := by
  have hsorted : ((take maxC time (addMany Registry.init entries).queue).1).Pairwise cbLtP :=
    take_pairwise (addMany_inv Registry.init_inv entries).1 maxC time
  have hord2 : cbLtP (((take maxC time (addMany Registry.init entries).queue).1).get ⟨i, hi⟩)
      (((take maxC time (addMany Registry.init entries).queue).1).get ⟨j, hj⟩) := hord
  rcases lt_trichotomy i j with h | h | h
  · exact h
  · exfalso
    subst h
    exact cbLtP_irrefl _ hord2
  · exfalso
    have hrev := List.pairwise_iff_getElem.mp hsorted j i hj hi h
    rw [List.get_eq_getElem, List.get_eq_getElem] at hord2
    exact cbLtP_asymm hord2 hrev

theorem take_extraction_order_witness : 0 < 1 :=
  take_extraction_order [(0, 0), (0, 0)] 0 0 0 1 (by decide) (by decide) (by decide)

theorem takeAux_zero (time : ℤ) :
    ∀ (q results : List Callback), q.Pairwise cbLtP →
      takeAux 0 time results q =
        (results ++ q.filter (fun cb => decide (cb.when ≤ time)),
          q.filter (fun cb => !decide (cb.when ≤ time))) := by
  intro q
  induction q with
  | nil =>
    intro results _
    simp [takeAux]
  | cons cb rest ih =>
    intro results h
    rcases List.pairwise_cons.mp h with ⟨hcb, hrest⟩
    by_cases hd : cb.when ≤ time
    · have hguard : (due (cb :: rest) time &&
          ((0 : Nat) == 0 || decide (results.length < 0))) = true := by
        simp [due_cons, hd]
      rw [takeAux_cons_pos hguard, ih (results ++ [cb]) hrest]
      simp [List.filter_cons, hd]
    · have hguard : (due (cb :: rest) time &&
          ((0 : Nat) == 0 || decide (results.length < 0))) = false := by
        simp [due_cons, hd]
      rw [takeAux_cons_neg hguard]
      have hall : ∀ x ∈ cb :: rest, ¬ x.when ≤ time := by
        intro x hx
        rcases List.mem_cons.mp hx with rfl | hx
        · exact hd
        · intro hle
          exact hd (le_trans (cbLtP_when_le (hcb x hx)) hle)
      have h1 : List.filter (fun cb => decide (cb.when ≤ time)) (cb :: rest) = [] :=
        List.filter_eq_nil_iff.mpr (by intro a ha; simpa using hall a ha)
      have h2 : List.filter (fun cb => !decide (cb.when ≤ time)) (cb :: rest) = cb :: rest :=
        List.filter_eq_self.mpr (by intro a ha; simpa using hall a ha)
      rw [h1, h2, List.append_nil]

/-- C2: on a registry satisfying the heap invariant, take(0, T) removes
and returns exactly the items whose due time is at most T, every other
item remains in the heap, and the remaining heap still satisfies the
invariant. -/
theorem take_zero_exact (q : List Callback) (hq : SortedQueue q) (T : ℤ) :
    (take 0 T q).1 = q.filter (fun cb => decide (cb.when ≤ T)) ∧
    (take 0 T q).2 = q.filter (fun cb => !decide (cb.when ≤ T)) ∧
    SortedQueue (take 0 T q).2 := by
  have h := takeAux_zero T q [] hq
  unfold take
  rw [h]
  exact ⟨by simp, rfl, List.Pairwise.filter _ hq⟩

theorem take_zero_exact_witness :
    (take 0 0 [⟨0, 0⟩, ⟨5, 1⟩]).1 =
      List.filter (fun cb => decide (cb.when ≤ 0)) [⟨0, 0⟩, ⟨5, 1⟩] ∧
    (take 0 0 [⟨0, 0⟩, ⟨5, 1⟩]).2 =
      List.filter (fun cb => !decide (cb.when ≤ 0)) [⟨0, 0⟩, ⟨5, 1⟩] ∧
    SortedQueue (take 0 0 [⟨0, 0⟩, ⟨5, 1⟩]).2 :=
  take_zero_exact [⟨0, 0⟩, ⟨5, 1⟩] (by decide) 0

theorem takeAux_length_le (maxC : Nat) (time : ℤ) (hpos : 0 < maxC) :
    ∀ (q results : List Callback), results.length ≤ maxC →
      ((takeAux maxC time results q).1).length ≤ maxC := by
  intro q
  induction q with
  | nil =>
    intro results h
    simpa [takeAux] using h
  | cons cb rest ih =>
    intro results h
    by_cases hc : (due (cb :: rest) time && (maxC == 0 || decide (results.length < maxC))) = true
    · rw [takeAux_cons_pos hc]
      apply ih
      have h2 := (Bool.and_eq_true_iff.mp hc).2
      rcases Bool.or_eq_true_iff.mp h2 with h2 | h2
      · exact absurd (beq_iff_eq.mp h2) (Nat.pos_iff_ne_zero.mp hpos)
      · have := of_decide_eq_true h2
        simpa using this
    · rw [takeAux_cons_neg (Bool.eq_false_iff.mpr hc)]
      exact h

/-- C3: for every positive bound k, every queue, and every time T,
take(k, T) returns at most k items. -/
theorem take_count_bound (k : Nat) (T : ℤ) (q : List Callback) (h : 0 < k) :
    ((take k T q).1).length ≤ k :=
  takeAux_length_le k T h q [] (by simp)

theorem take_count_bound_witness :
    ((take 1 0 [⟨0, 0⟩, ⟨0, 1⟩]).1).length ≤ 1 :=
  take_count_bound 1 0 [⟨0, 0⟩, ⟨0, 1⟩] (by decide)

/-- C4: the three non-blocking queries agree on every queue: due(T) holds
iff nextTimestamp returns a value at most T, and empty holds iff
nextTimestamp returns nothing. -/
theorem queries_consistent (q : List Callback) (T : ℤ) :
    (due q T = true ↔ ∃ t, nextTimestamp q = some t ∧ t ≤ T) ∧
    (emptyQ q = true ↔ nextTimestamp q = none) := by
  cases q with
  | nil => simp [due, emptyQ, nextTimestamp]
  | cons cb rest =>
    constructor
    · rw [due_cons]
      simp [nextTimestamp]
    · simp [emptyQ, nextTimestamp]

theorem takeAuxChecked_eq (maxC : Nat) (time : ℤ) :
    ∀ (q results : List Callback),
      takeAuxChecked maxC time results q = some (takeAux maxC time results q) := by
  intro q
  induction q with
  | nil =>
    intro results
    simp [takeAuxChecked, takeAux, due_nil]
  | cons cb rest ih =>
    intro results
    by_cases hc : (due (cb :: rest) time && (maxC == 0 || decide (results.length < maxC))) = true
    · rw [takeAux_cons_pos hc]
      simp only [takeAuxChecked, hc, if_true]
      exact ih (results ++ [cb])
    · rw [takeAux_cons_neg (Bool.eq_false_iff.mpr hc)]
      simp only [takeAuxChecked, Bool.eq_false_iff.mpr hc, Bool.false_eq_true, if_false]

/-- C10: the extraction loop never reads or pops the top of an empty heap:
the variant of the loop in which an empty-heap top access is an explicit
error never takes the error branch (it always returns the plain result),
and take on an empty registry returns an empty sequence leaving the heap
empty. -/
theorem take_guarded_no_empty_pop :
    (∀ (maxC : Nat) (time : ℤ) (results q : List Callback),
        takeAuxChecked maxC time results q = some (takeAux maxC time results q)) ∧
    (∀ (maxC : Nat) (time : ℤ), take maxC time [] = ([], [])) := by
  constructor
  · intro maxC time results q
    exact takeAuxChecked_eq maxC time q results
  · intro maxC time
    rfl

theorem clampSleep_le_two (w : ℤ) : clampSleep w ≤ 2 := by
  unfold clampSleep
  by_cases h : w > 2
  · rw [if_pos h]
  · rw [if_neg h]
    exact not_lt.mp h

theorem waitLoop_break {q : List Callback} {e : ℤ} {clock : Nat → ℤ}
    {intr : Nat → Bool} {fuel tIdx iIdx : Nat} {sleeps : List ℤ}
    (h : endTime q e - clock tIdx ≤ 0) :
    waitLoop q e clock intr (fuel + 1) tIdx iIdx sleeps =
      some (Except.ok (due q (clock (tIdx + 1))), sleeps, q) := by
  simp only [waitLoop]
  rw [if_pos h]

theorem waitLoop_intr {q : List Callback} {e : ℤ} {clock : Nat → ℤ}
    {intr : Nat → Bool} {fuel tIdx iIdx : Nat} {sleeps : List ℤ}
    (h : ¬ endTime q e - clock tIdx ≤ 0) (hi : intr iIdx = true) :
    waitLoop q e clock intr (fuel + 1) tIdx iIdx sleeps =
      some (Except.error (), sleeps ++ [clampSleep (endTime q e - clock tIdx)], q) := by
  simp only [waitLoop]
  rw [if_neg h, hi]
  simp

theorem waitLoop_step {q : List Callback} {e : ℤ} {clock : Nat → ℤ}
    {intr : Nat → Bool} {fuel tIdx iIdx : Nat} {sleeps : List ℤ}
    (h : ¬ endTime q e - clock tIdx ≤ 0) (hi : intr iIdx = false) :
    waitLoop q e clock intr (fuel + 1) tIdx iIdx sleeps =
      waitLoop q e clock intr fuel (tIdx + 1) (iIdx + 1)
        (sleeps ++ [clampSleep (endTime q e - clock tIdx)]) := by
  simp only [waitLoop]
  rw [if_neg h, hi]
  simp

theorem waitLoop_spec (q : List Callback) (e : ℤ) (clock : Nat → ℤ)
    (intr : Nat → Bool) :
    ∀ (fuel tIdx iIdx : Nat) (sleeps s : List ℤ) (r : Except Unit Bool)
      (qOut : List Callback),
      waitLoop q e clock intr fuel tIdx iIdx sleeps = some (r, s, qOut) →
      qOut = q ∧
      (∀ d ∈ s, d ∈ sleeps ∨ d ≤ 2) ∧
      ∃ m, s.length = sleeps.length + m ∧
        (r = Except.error () → 0 < m ∧ intr (iIdx + m - 1) = true) ∧
        (∀ b, r = Except.ok b →
          (∀ j, j < m → intr (iIdx + j) = false) ∧
          b = due q (clock (tIdx + m + 1))) := by
  intro fuel
  induction fuel with
  | zero =>
    intro tIdx iIdx sleeps s r qOut h
    simp [waitLoop] at h
  | succ fuel ih =>
    intro tIdx iIdx sleeps s r qOut h
    by_cases hb : endTime q e - clock tIdx ≤ 0
    · rw [waitLoop_break hb] at h
      simp only [Option.some.injEq, Prod.mk.injEq] at h
      obtain ⟨hr, hs, hqo⟩ := h
      subst hr
      subst hs
      subst hqo
      refine ⟨rfl, fun d hd => Or.inl hd, 0, by simp, ?_, ?_⟩
      · intro he
        simp at he
      · intro b hbv
        refine ⟨fun j hj => absurd hj (Nat.not_lt_zero j), ?_⟩
        injection hbv with hbv2
        exact hbv2.symm
    · by_cases hi : intr iIdx = true
      · rw [waitLoop_intr hb hi] at h
        simp only [Option.some.injEq, Prod.mk.injEq] at h
        obtain ⟨hr, hs, hqo⟩ := h
        subst hr
        subst hs
        subst hqo
        refine ⟨rfl, ?_, 1, by simp, ?_, ?_⟩
        · intro d hd
          rcases List.mem_append.mp hd with hd | hd
          · exact Or.inl hd
          · right
            simp at hd
            subst hd
            exact clampSleep_le_two _
        · intro _
          refine ⟨Nat.zero_lt_one, ?_⟩
          simpa using hi
        · intro b hbv
          simp at hbv
      · have hif : intr iIdx = false := by
          simpa using hi
        rw [waitLoop_step hb hif] at h
        obtain ⟨hqo, hsl, m, hm, herr, hok⟩ :=
          ih (tIdx + 1) (iIdx + 1) (sleeps ++ [clampSleep (endTime q e - clock tIdx)])
            s r qOut h
        refine ⟨hqo, ?_, m + 1, ?_, ?_, ?_⟩
        · intro d hd
          rcases hsl d hd with hd2 | hd2
          · rcases List.mem_append.mp hd2 with hd3 | hd3
            · exact Or.inl hd3
            · right
              simp at hd3
              subst hd3
              exact clampSleep_le_two _
          · exact Or.inr hd2
        · simp only [List.length_append, List.length_cons, List.length_nil] at hm ⊢
          omega
        · intro he
          obtain ⟨hm0, hintr⟩ := herr he
          refine ⟨Nat.succ_pos m, ?_⟩
          have hidx : iIdx + (m + 1) - 1 = iIdx + 1 + m - 1 := by omega
          rw [hidx]
          exact hintr
        · intro b hbv
          obtain ⟨hintr, hdue⟩ := hok b hbv
          constructor
          · intro j hj
            cases j with
            | zero => simpa using hif
            | succ j2 =>
              have hidx : iIdx + (j2 + 1) = iIdx + 1 + j2 := by omega
              rw [hidx]
              exact hintr j2 (by omega)
          · have hidx : tIdx + (m + 1) + 1 = tIdx + 1 + m + 1 := by omega
            rw [hidx]
            exact hdue

/-- C5: whenever wait returns normally (no interrupt raised), the boolean
it returns equals due evaluated at the clock reading taken at return time
(the reading after the entry reading and the one reading per loop
iteration, of which there are s.length + 1 when s sleeps occurred). -/
theorem wait_returns_due_now (q : List Callback) (timeoutSecs : ℤ)
    (clock : Nat → ℤ) (intr : Nat → Bool) (fuel : Nat) (b : Bool)
    (s : List ℤ) (qOut : List Callback)
    (h : wait q timeoutSecs clock intr fuel = some (Except.ok b, s, qOut)) :
    b = due q (clock (s.length + 2)) := by
  obtain ⟨-, -, m, hm, -, hok⟩ :=
    waitLoop_spec q (clock 0 + effectiveTimeout timeoutSecs) clock intr fuel 1 0 []
      s (Except.ok b) qOut h
  obtain ⟨-, hdue⟩ := hok b rfl
  rw [hdue]
  simp only [List.length_nil] at hm
  have hidx : 1 + m + 1 = s.length + 2 := by omega
  rw [hidx]

theorem wait_returns_due_now_witness :
    false = due [] ((fun _ => (0 : ℤ)) (([] : List ℤ).length + 2)) :=
  wait_returns_due_now [] 0 (fun _ => (0 : ℤ)) (fun _ => false) 1 false [] []
    (by rfl)

/-- C6: in every run of wait, every duration handed to the blocking timed
wait is at most 2 time-units, however far away the computed wake-up point
is. -/
theorem wait_sleeps_bounded (q : List Callback) (timeoutSecs : ℤ)
    (clock : Nat → ℤ) (intr : Nat → Bool) (fuel : Nat)
    (r : Except Unit Bool) (s : List ℤ) (qOut : List Callback)
    (h : wait q timeoutSecs clock intr fuel = some (r, s, qOut)) :
    ∀ d ∈ s, d ≤ 2 := by
  obtain ⟨-, hsl, -⟩ :=
    waitLoop_spec q (clock 0 + effectiveTimeout timeoutSecs) clock intr fuel 1 0 []
      s r qOut h
  intro d hd
  rcases hsl d hd with hmem | hle
  · simp at hmem
  · exact hle

theorem wait_sleeps_bounded_witness : (1 : ℤ) ≤ 2 :=
  wait_sleeps_bounded [⟨10, 0⟩] 5 (fun n => (n : ℤ)) (fun _ => false) 10
    (Except.ok false) [2, 2, 2, 1] [⟨10, 0⟩] (by rfl) 1 (by decide)

/-- C7: a negative timeout is replaced by the enormous but finite
duration 3e10 before the deadline is computed, so wait with a negative
timeout behaves exactly like wait with the finite timeout 3e10 and its
periodic wake cycle still occurs. -/
theorem wait_negative_timeout (q : List Callback) (t : ℤ) (clock : Nat → ℤ)
    (intr : Nat → Bool) (fuel : Nat) (h : t < 0) :
    effectiveTimeout t = 30000000000 ∧
    wait q t clock intr fuel = wait q 30000000000 clock intr fuel := by
  have he : effectiveTimeout t = 30000000000 := by
    unfold effectiveTimeout
    rw [if_pos h]
  have he2 : effectiveTimeout 30000000000 = 30000000000 := by
    unfold effectiveTimeout
    rw [if_neg (by norm_num)]
  refine ⟨he, ?_⟩
  unfold wait
  rw [he, he2]

theorem wait_negative_timeout_witness :
    effectiveTimeout (-1) = 30000000000 ∧
    wait [] (-1) (fun _ => (0 : ℤ)) (fun _ => false) 0 =
      wait [] 30000000000 (fun _ => (0 : ℤ)) (fun _ => false) 0 :=
  wait_negative_timeout [] (-1) (fun _ => (0 : ℤ)) (fun _ => false) 0 (by norm_num)

/-- C8: wait never mutates the queue — the heap after any completed run
equals the heap before — and the interrupt check is propagated, not
swallowed: a run ends in the cancellation outcome exactly by an interrupt
check that fired (the last check performed), while a normal return means
every check performed during the wait reported no interrupt. -/
theorem wait_interrupt_frame (q : List Callback) (timeoutSecs : ℤ)
    (clock : Nat → ℤ) (intr : Nat → Bool) (fuel : Nat)
    (r : Except Unit Bool) (s : List ℤ) (qOut : List Callback)
    (h : wait q timeoutSecs clock intr fuel = some (r, s, qOut)) :
    qOut = q ∧
    (r = Except.error () → 0 < s.length ∧ intr (s.length - 1) = true) ∧
    (∀ b, r = Except.ok b → ∀ j, j < s.length → intr j = false) := by
  obtain ⟨hq, -, m, hm, herr, hok⟩ :=
    waitLoop_spec q (clock 0 + effectiveTimeout timeoutSecs) clock intr fuel 1 0 []
      s r qOut h
  simp only [List.length_nil] at hm
  refine ⟨hq, ?_, ?_⟩
  · intro he
    obtain ⟨hm0, hintr⟩ := herr he
    refine ⟨by omega, ?_⟩
    have hidx : s.length - 1 = 0 + m - 1 := by omega
    rw [hidx]
    exact hintr
  · intro b hbv j hj
    have hj2 := (hok b hbv).1 j (by omega)
    rw [Nat.zero_add] at hj2
    exact hj2

theorem wait_interrupt_frame_witness :
    0 < ([(2 : ℤ)]).length ∧
    (fun _ : Nat => true) (([(2 : ℤ)]).length - 1) = true :=
  (wait_interrupt_frame [⟨10, 0⟩] 5 (fun n => (n : ℤ)) (fun _ => true) 10
    (Except.error ()) [2] [⟨10, 0⟩] (by rfl)).2.1 rfl

theorem listDrain_eq_map (now : ℤ) :
    ∀ q : List Callback, listDrain now q = q.map (fun cb => rRepresentation cb now) := by
  intro q
  induction q with
  | nil => rfl
  | cons cb rest ih =>
    simp [listDrain, ih]

/-- C9: the snapshot returns the representations of all queued items, in
queue order, which under the heap invariant is ascending
(dueTime, sequence) order, and the live registry is returned completely
unchanged. -/
theorem list_snapshot (r : Registry) (now : ℤ) (hq : SortedQueue r.queue) :
    (listOp r now).2 = r ∧
    (listOp r now).1 = r.queue.map (fun cb => rRepresentation cb now) ∧
    ((listOp r now).1).Pairwise reprLtP := by
  have hmap : (listOp r now).1 = r.queue.map (fun cb => rRepresentation cb now) :=
    listDrain_eq_map now r.queue
  refine ⟨rfl, hmap, ?_⟩
  rw [hmap, List.pairwise_map]
  refine List.Pairwise.imp ?_ hq
  intro a b hab
  rcases hab with hw | ⟨he, hn⟩
  · exact Or.inl (sub_lt_sub_right hw now)
  · refine Or.inr ⟨?_, hn⟩
    show a.when - now = b.when - now
    rw [he]

theorem list_snapshot_witness :
    (listOp ⟨[⟨1, 0⟩, ⟨2, 1⟩], 2⟩ 0).2 = ⟨[⟨1, 0⟩, ⟨2, 1⟩], 2⟩ ∧
    (listOp ⟨[⟨1, 0⟩, ⟨2, 1⟩], 2⟩ 0).1 =
      List.map (fun cb => rRepresentation cb 0) [⟨1, 0⟩, ⟨2, 1⟩] ∧
    ((listOp ⟨[⟨1, 0⟩, ⟨2, 1⟩], 2⟩ 0).1).Pairwise reprLtP :=
  list_snapshot ⟨[⟨1, 0⟩, ⟨2, 1⟩], 2⟩ 0 (by decide)

end LaterReg
